import Mathlib

/-
  Verification of the SQL dump runner `run_flights_sql.py`
  (Relational Database Administration / PostgreSQL).

  The development shallowly embeds the three functions of the script:
    - `split_sql_statements`  (line-oriented statement splitter with
      dollar-quote tracking),
    - `execute_sql_statements` (COPY-block isolation and per-statement
      execution with the "already exists" tolerance policy),
    - `execute_sql_file`       (segmentation on backslash-connect directives,
      per-segment connection management, success flag).

  Text is modelled as `List Char`; the Python `str.split` / regex scans are
  embedded as executable recursive scanners, and the database side effects of
  a run are modelled as an explicit event trace parameterised by an
  environment that decides which statements raise errors and which
  connection attempts succeed.
-/

set_option maxRecDepth 10000

/-! ## Basic text utilities (Python `str.strip`, `str.endswith`, `in`) -/

/-- The whitespace characters stripped by Python `str.strip()` (ASCII set). -/
def isWS (c : Char) : Bool :=
  c = ' ' || c = '\t' || c = '\n' || c = '\r' || c = '\x0b' || c = '\x0c'

/-- Python truthiness of `s.strip()`: some non-whitespace character remains. -/
def stripNonempty (l : List Char) : Bool := l.any (fun c => !isWS c)

/-- Python `s.strip()`: drop leading and trailing whitespace. -/
def stripList (l : List Char) : List Char :=
  ((l.dropWhile isWS).reverse.dropWhile isWS).reverse

/-- Python `line.strip().endswith(';')`: last non-whitespace char is `;`. -/
def endsSemi (l : List Char) : Bool :=
  match l.reverse.dropWhile isWS with
  | [] => false
  | c :: _ => c == ';'

/-- Concatenation of a list of chunks. -/
def catLists {α : Type} : List (List α) → List α
  | [] => []
  | l :: ls => l ++ catLists ls

/-- Python `sep.join(chunks)`. -/
def intercal (sep : List Char) : List (List Char) → List Char
  | [] => []
  | [x] => x
  | x :: xs => x ++ sep ++ intercal sep xs

/-- Python substring test `pat in l`. -/
def containsSub (pat l : List Char) : Bool :=
  l.tails.any (fun t => pat.isPrefixOf t)

/-- Python `text.split('\n')`. -/
def splitOnNl : List Char → List (List Char)
  | [] => [[]]
  | c :: cs =>
    if c = '\n' then [] :: splitOnNl cs
    else
      match splitOnNl cs with
      | [] => [[c]]
      | l :: ls => (c :: l) :: ls

/-! ## `split_sql_statements` -/

/-- `re.search(r'\$[^$]*\$', line)` succeeds iff the line holds two `$`. -/
def hasDollarMarker (l : List Char) : Bool := 2 ≤ l.count '$'

/-- The leftmost match of `(\$[^$]*\$)`: from the first `$` through the
    next `$` after it. -/
def firstMarker (l : List Char) : Option (List Char) :=
  match l.dropWhile (fun c => c != '$') with
  | [] => none
  | d :: rest =>
    match rest.dropWhile (fun c => c != '$') with
    | [] => none
    | d2 :: _ => some (d :: (rest.takeWhile (fun c => c != '$') ++ [d2]))

/-- The dollar-quote bookkeeping done per line by `split_sql_statements`:
    capture the first marker when no tag is active; clear the tag when the
    line holds a marker and the active tag's text reappears. -/
def updateQuote (dq : Option (List Char)) (line : List Char) : Option (List Char) :=
  if hasDollarMarker line then
    match dq with
    | none => firstMarker line
    | some tag => if containsSub tag line then none else some tag
  else dq

/-- The line loop of `split_sql_statements`: accumulate a buffer, emit it when
    a line ends in `;` with no active dollar-quote tag, and emit any trailing
    non-blank buffer at end of text. -/
def splitAux : Option (List Char) → List Char → List (List Char) → List (List Char)
  | _, current, [] => if stripNonempty current then [current] else []
  | dq, current, line :: ls =>
    let dq2 := updateQuote dq line
    let cur2 := current ++ line ++ ['\n']
    if dq2.isNone && endsSemi line then cur2 :: splitAux dq2 [] ls
    else splitAux dq2 cur2 ls

/-- `split_sql_statements(sql_text)`. -/
def split_sql_statements (t : List Char) : List (List Char) :=
  splitAux none [] (splitOnNl t)

example : split_sql_statements "SELECT 1;\nSELECT 2;".data =
    ["SELECT 1;\n".data, "SELECT 2;\n".data] := by decide

example : (split_sql_statements
    "CREATE FUNCTION f() RETURNS integer AS $$\nBEGIN\n RETURN 1;\nEND;\n$$ LANGUAGE plpgsql;".data).length
    = 1 := by decide

example : (split_sql_statements "SELECT $f$a;b$f$;\nSELECT 1;\nSELECT 2;".data).length
    = 1 := by decide

example : (split_sql_statements "SELECT $f$a;b$f$;\nSELECT 1;\n$f$;\nSELECT 2;".data).length
    = 2 := by decide

/-! ## Segmentation on backslash-connect directives

`execute_sql_file` runs `re.split(r'\\connect\s+(\w+)', content)`, giving the
text before the first directive and a `(database, text)` pair per directive.
The regex is embedded as a leftmost-match scanner. -/

/-- Python regex `\w`: letters, digits, underscore. -/
def isWordChar (c : Char) : Bool := c.isAlphanum || c = '_'

/-- Try to match `\\connect\s+(\w+)` at the head of `l`; on success return
    the captured identifier and the text after the match. -/
def matchConnect (l : List Char) : Option (List Char × List Char) :=
  if "\\connect".data.isPrefixOf l then
    if ((l.drop 8).takeWhile isWS).isEmpty
        || (((l.drop 8).dropWhile isWS).takeWhile isWordChar).isEmpty then none
    else some (((l.drop 8).dropWhile isWS).takeWhile isWordChar,
      ((l.drop 8).dropWhile isWS).drop
        (((l.drop 8).dropWhile isWS).takeWhile isWordChar).length)
  else none

theorem len_takeWhile_le (p : Char → Bool) (l : List Char) :
    (l.takeWhile p).length ≤ l.length := by
  induction l with
  | nil => simp [List.takeWhile]
  | cons a as ih =>
    simp only [List.takeWhile]
    cases p a
    · simp
    · simp; omega

theorem len_dropWhile_le (p : Char → Bool) (l : List Char) :
    (l.dropWhile p).length ≤ l.length := by
  induction l with
  | nil => simp [List.dropWhile]
  | cons a as ih =>
    simp only [List.dropWhile]
    cases p a
    · simp
    · simp; omega

theorem matchConnect_rest_lt {l db rest : List Char}
    (h : matchConnect l = some (db, rest)) : rest.length < l.length := by
  unfold matchConnect at h
  split_ifs at h with hp he
  rw [Option.some_inj, Prod.mk.injEq] at h
  obtain ⟨-, hrest⟩ := h
  rw [Bool.or_eq_true, not_or] at he
  obtain ⟨-, hw⟩ := he
  have hw1 : 0 < (((l.drop 8).dropWhile isWS).takeWhile isWordChar).length := by
    cases hx : ((l.drop 8).dropWhile isWS).takeWhile isWordChar with
    | nil => rw [hx] at hw; simp at hw
    | cons a as => simp
  have hw2 := len_takeWhile_le isWordChar ((l.drop 8).dropWhile isWS)
  have hw3 := len_dropWhile_le isWS (l.drop 8)
  have hlen : 8 ≤ l.length := by
    have := (List.isPrefixOf_iff_prefix.mp hp).length_le
    simpa using this
  have hr : rest.length
      = ((l.drop 8).dropWhile isWS).length
        - (((l.drop 8).dropWhile isWS).takeWhile isWordChar).length := by
    rw [← hrest, List.length_drop]
  rw [List.length_drop] at hw3
  omega

/-- Leftmost-match scan of `re.split(r'\\connect\s+(\w+)', content)`, with a
    fuel argument to make the recursion structural; each step either advances
    one character or consumes a whole directive. -/
def splitConnectF : Nat → List Char → List Char × List (List Char × List Char)
  | _, [] => ([], [])
  | 0, l => (l, [])
  | fuel + 1, c :: cs =>
    match matchConnect (c :: cs) with
    | some (db, rest) =>
      let p := splitConnectF fuel rest
      ([], (db, p.1) :: p.2)
    | none =>
      let p := splitConnectF fuel cs
      (c :: p.1, p.2)

theorem splitConnectF_fuel {f : Nat} : ∀ {g : Nat} {l : List Char},
    l.length ≤ f → l.length ≤ g → splitConnectF f l = splitConnectF g l := by
  induction f with
  | zero =>
    intro g l hf _
    have : l = [] := List.length_eq_zero.mp (Nat.le_zero.mp hf)
    subst this
    cases g <;> rfl
  | succ f ih =>
    intro g l hf hg
    cases l with
    | nil => cases g <;> rfl
    | cons c cs =>
      cases g with
      | zero => simp at hg
      | succ g =>
        simp only [splitConnectF]
        cases hm : matchConnect (c :: cs) with
        | some p =>
          obtain ⟨db, rest⟩ := p
          have hlt := matchConnect_rest_lt hm
          simp only [List.length_cons] at hf hg hlt
          have h1 : splitConnectF f rest = splitConnectF g rest :=
            ih (by omega) (by omega)
          simp only [h1]
        | none =>
          simp only [List.length_cons] at hf hg
          have h1 : splitConnectF f cs = splitConnectF g cs :=
            ih (by omega) (by omega)
          simp only [h1]

/-- `re.split(r'\\connect\s+(\w+)', content)`: the text before the first
    directive, and one `(database, following text)` pair per directive. -/
def splitConnect (l : List Char) : List Char × List (List Char × List Char) :=
  splitConnectF l.length l

theorem splitConnect_nil : splitConnect [] = ([], []) := rfl

theorem splitConnect_cons_match {c : Char} {cs db rest : List Char}
    (h : matchConnect (c :: cs) = some (db, rest)) :
    splitConnect (c :: cs)
      = ([], (db, (splitConnect rest).1) :: (splitConnect rest).2) := by
  unfold splitConnect
  have hlt := matchConnect_rest_lt h
  simp only [List.length_cons, splitConnectF, h]
  rw [splitConnectF_fuel (l := rest) (by simp at hlt ⊢; omega) (le_refl _)]

theorem splitConnect_cons_nomatch {c : Char} {cs : List Char}
    (h : matchConnect (c :: cs) = none) :
    splitConnect (c :: cs)
      = (c :: (splitConnect cs).1, (splitConnect cs).2) := by
  unfold splitConnect
  simp only [List.length_cons, splitConnectF, h]

example : splitConnect "a;\n\\connect db1\nb;\n\\connect db2\nc;".data
    = ("a;\n".data, [("db1".data, "\nb;\n".data), ("db2".data, "\nc;".data)]) := by
  decide

/-! ## COPY-block isolation

`execute_sql_statements` runs
`re.split(r'(COPY\s+[^;]+FROM\s+stdin;.*?\n\\.\n)', sql_content, DOTALL|IGNORECASE)`.
The header `COPY\s+[^;]+FROM\s+stdin;` is semicolon-free up to its final `;`,
so a match at a position spans up to the first `;`, and the lazy `.*?\n\\.\n`
ends at the first following `\n\.\n`.  The scanner below embeds exactly those
leftmost-match semantics. -/

/-- Case-insensitive literal prefix (the pattern is given in lowercase). -/
def ciPrefix (pat l : List Char) : Bool :=
  pat.isPrefixOf (l.map Char.toLower)

/-- Decide whether a semicolon-free chunk fully matches `\s+[^;]+FROM\s+stdin`
    (case-insensitive): it ends in `stdin`, preceded by at least one
    whitespace char, preceded by `from`, with at least two chars (one
    whitespace, one `[^;]`) before that. -/
def matchCopyHeadFull (pre : List Char) : Bool :=
  let r := pre.reverse
  if ciPrefix "nidts".data r then
    let r1 := r.drop 5
    if (r1.takeWhile isWS).isEmpty then false
    else
      let r2 := r1.dropWhile isWS
      if ciPrefix "morf".data r2 then
        match (r2.drop 4).reverse with
        | [] => false
        | c :: rest2 => isWS c && !rest2.isEmpty
      else false
  else false

/-- Find the first occurrence of `pat` in `l`; return the text before and
    after it. -/
def findSplit (pat : List Char) : List Char → Option (List Char × List Char)
  | [] => if pat.isEmpty then some ([], []) else none
  | c :: cs =>
    if pat.isPrefixOf (c :: cs) then some ([], (c :: cs).drop pat.length)
    else
      match findSplit pat cs with
      | some (b, a) => some (c :: b, a)
      | none => none

theorem findSplit_eq {pat : List Char} {l b a : List Char}
    (h : findSplit pat l = some (b, a)) : l = b ++ pat ++ a := by
  induction l generalizing b a with
  | nil =>
    unfold findSplit at h
    split_ifs at h with hp
    · rw [Option.some_inj, Prod.mk.injEq] at h
      obtain ⟨hb, ha⟩ := h
      rw [List.isEmpty_iff] at hp
      simp [← hb, ← ha, hp]
  | cons c cs ih =>
    unfold findSplit at h
    split_ifs at h with hp
    · rw [Option.some_inj, Prod.mk.injEq] at h
      obtain ⟨hb, ha⟩ := h
      obtain ⟨t, ht⟩ := List.isPrefixOf_iff_prefix.mp hp
      rw [← hb, ← ha, List.nil_append, ← ht, List.drop_left]
    · cases hm : findSplit pat cs with
      | some p =>
        obtain ⟨b', a'⟩ := p
        rw [hm, Option.some_inj, Prod.mk.injEq] at h
        obtain ⟨hb, ha⟩ := h
        subst hb; subst ha
        simpa using ih hm
      | none => rw [hm] at h; exact absurd h (by simp)

/-- The full `(COPY\s+[^;]+FROM\s+stdin;.*?\n\\.\n)` match attempt at the head
    of `l`: on success, the matched block text and the remainder. -/
def matchCopy (l : List Char) : Option (List Char × List Char) :=
  if ciPrefix "copy".data l then
    match (l.drop 4).dropWhile (fun c => c != ';') with
    | [] => none
    | c :: afterSemi =>
      if matchCopyHeadFull ((l.drop 4).takeWhile (fun c => c != ';')) then
        match findSplit ['\n', '\\', '.', '\n'] afterSemi with
        | some (mid, rest) =>
          some (l.take 4 ++ (l.drop 4).takeWhile (fun c => c != ';')
            ++ c :: (mid ++ ['\n', '\\', '.', '\n']), rest)
        | none => none
      else none
  else none

theorem matchCopy_eq {l blk rest : List Char}
    (h : matchCopy l = some (blk, rest)) :
    l = blk ++ rest ∧ 0 < blk.length := by
  unfold matchCopy at h
  split_ifs at h with hcp hh
  · cases hd : (l.drop 4).dropWhile (fun c => c != ';') with
    | nil => rw [hd] at h; simp at h
    | cons c afterSemi =>
      rw [hd] at h
      dsimp only at h
      cases hf : findSplit ['\n', '\\', '.', '\n'] afterSemi with
      | none => rw [hf] at h; simp at h
      | some q =>
        obtain ⟨mid, rst⟩ := q
        rw [hf] at h
        dsimp only at h
        rw [Option.some_inj, Prod.mk.injEq] at h
        obtain ⟨hb, hr⟩ := h
        subst hb; subst hr
        constructor
        · conv_lhs => rw [← List.take_append_drop 4 l,
            ← List.takeWhile_append_dropWhile (fun c => c != ';') (l.drop 4),
            hd, findSplit_eq hf]
          simp
        · simp
  · exact absurd h
      (by cases hx : (l.drop 4).dropWhile (fun c => c != ';') <;> simp [hx])

theorem matchCopy_rest_lt {l blk rest : List Char}
    (h : matchCopy l = some (blk, rest)) : rest.length < l.length := by
  obtain ⟨heq, hpos⟩ := matchCopy_eq h
  rw [heq, List.length_append]
  omega

/-- Leftmost-match scan of the COPY-block split, fuelled structurally. -/
def splitCopyF : Nat → List Char → List Char × List (List Char × List Char)
  | _, [] => ([], [])
  | 0, l => (l, [])
  | fuel + 1, c :: cs =>
    match matchCopy (c :: cs) with
    | some (blk, rest) =>
      let p := splitCopyF fuel rest
      ([], (blk, p.1) :: p.2)
    | none =>
      let p := splitCopyF fuel cs
      (c :: p.1, p.2)

theorem splitCopyF_fuel {f : Nat} : ∀ {g : Nat} {l : List Char},
    l.length ≤ f → l.length ≤ g → splitCopyF f l = splitCopyF g l := by
  induction f with
  | zero =>
    intro g l hf _
    have : l = [] := List.length_eq_zero.mp (Nat.le_zero.mp hf)
    subst this
    cases g <;> rfl
  | succ f ih =>
    intro g l hf hg
    cases l with
    | nil => cases g <;> rfl
    | cons c cs =>
      cases g with
      | zero => simp at hg
      | succ g =>
        simp only [splitCopyF]
        cases hm : matchCopy (c :: cs) with
        | some p =>
          obtain ⟨blk, rest⟩ := p
          have hlt := matchCopy_rest_lt hm
          simp only [List.length_cons] at hf hg hlt
          have h1 : splitCopyF f rest = splitCopyF g rest :=
            ih (by omega) (by omega)
          simp only [h1]
        | none =>
          simp only [List.length_cons] at hf hg
          have h1 : splitCopyF f cs = splitCopyF g cs :=
            ih (by omega) (by omega)
          simp only [h1]

/-- The COPY-block split of a segment's text: the text before the first block
    and one `(block, following text)` pair per matched block, mirroring
    `re.split` with a captured group. -/
def splitCopy (l : List Char) : List Char × List (List Char × List Char) :=
  splitCopyF l.length l

theorem splitCopy_nil : splitCopy [] = ([], []) := rfl

theorem splitCopy_cons_match {c : Char} {cs blk rest : List Char}
    (h : matchCopy (c :: cs) = some (blk, rest)) :
    splitCopy (c :: cs)
      = ([], (blk, (splitCopy rest).1) :: (splitCopy rest).2) := by
  unfold splitCopy
  have hlt := matchCopy_rest_lt h
  simp only [List.length_cons, splitCopyF, h]
  rw [splitCopyF_fuel (l := rest) (by simp at hlt ⊢; omega) (le_refl _)]

theorem splitCopy_cons_nomatch {c : Char} {cs : List Char}
    (h : matchCopy (c :: cs) = none) :
    splitCopy (c :: cs) = (c :: (splitCopy cs).1, (splitCopy cs).2) := by
  unfold splitCopy
  simp only [List.length_cons, splitCopyF, h]

/-- `re.match(r'COPY\s+[^;]+FROM\s+stdin;', part, IGNORECASE)`: the anchored
    header test used to classify a part as a COPY block. -/
def isCopyStart (part : List Char) : Bool :=
  ciPrefix "copy".data part
    && !((part.drop 4).dropWhile (fun c => c != ';')).isEmpty
    && matchCopyHeadFull ((part.drop 4).takeWhile (fun c => c != ';'))

/-- The data-collection loop of the COPY branch: walk the lines after the
    header, stop at a line whose strip is `\.`, skip leading blank lines,
    then keep every line. -/
def copyData : Bool → List (List Char) → List (List Char)
  | _, [] => []
  | inData, line :: ls =>
    if stripList line = ['\\', '.'] then []
    else if inData || stripNonempty line then line :: copyData true ls
    else copyData inData ls

example : splitCopy "COPY t (a) FROM stdin;\n1\n2\n\\.\nSELECT 1;".data
    = ([], [("COPY t (a) FROM stdin;\n1\n2\n\\.\n".data, "SELECT 1;".data)]) := by
  decide

example : isCopyStart "COPY t (a) FROM stdin;".data = true := by decide
example : isCopyStart "SELECT 1;".data = false := by decide
example : copyData false ["1".data, "2".data, "\\.".data, "x".data]
    = ["1".data, "2".data] := by decide

/-! ## Execution model

Database side effects are modelled as an event trace.  An `Env` is the
behaviour of the external database: which statements and COPY commands raise
a `psycopg2.Error` (and with what message), and which connection attempts
succeed.  Connections are identified by the order in which they are opened. -/

/-- Observable database events of a run. -/
inductive Ev : Type
  | openC (cid : Nat) (db : List Char)
  | closeC (cid : Nat)
  | exec (cid : Nat) (stmt : List Char)
  | commit (cid : Nat)
  | rollback (cid : Nat)
  | copy (cid : Nat) (cmd : List Char) (data : List Char)
  | warn (msg : List Char)
  deriving DecidableEq

/-- Behaviour of the external database. -/
structure Env : Type where
  execErr : List Char → Option (List Char)
  copyErr : List Char → Option (List Char)
  connectOk : List Char → Bool

/-- `DB_CONFIG["dbname"]`: the initially configured database. -/
def defaultDbName : List Char := "postgres".data

/-- One ordinary statement inside `execute_sql_statements`: skip it when its
    strip is empty; otherwise execute and commit, or on `psycopg2.Error`
    print a warning unless the lowered message holds `already exists`, and
    roll back either way. -/
def execOrd (env : Env) (cid : Nat) (st : List Char) : List Ev :=
  if !stripNonempty st then []
  else
    match env.execErr st with
    | none => [Ev.exec cid st, Ev.commit cid]
    | some msg =>
      if containsSub "already exists".data (msg.map Char.toLower) then
        [Ev.exec cid st, Ev.rollback cid]
      else
        [Ev.exec cid st, Ev.warn msg, Ev.rollback cid]

/-- One part of the COPY-split inside `execute_sql_statements`: blank parts
    are skipped; a part whose head matches the COPY header runs one
    `copy_expert` on the newline-joined captured data lines (commit on
    success, warning on error); any other part is split into statements and
    each is run by `execOrd`. -/
def execPart (env : Env) (cid : Nat) (part : List Char) : List Ev :=
  if !stripNonempty part then []
  else if isCopyStart part then
    let lines := splitOnNl part
    let cmd := lines.headD []
    let dataStr := intercal ['\n'] (copyData false (lines.drop 1))
    match env.copyErr cmd with
    | none => [Ev.copy cid cmd dataStr, Ev.commit cid]
    | some msg => [Ev.copy cid cmd dataStr, Ev.warn msg]
  else
    catLists ((split_sql_statements part).map (execOrd env cid))

/-- `execute_sql_statements(conn, sql_content)` as the event trace it
    produces on connection `cid`. -/
def execStatements (env : Env) (cid : Nat) (sql : List Char) : List Ev :=
  catLists
    (((splitCopy sql).1 :: catLists ((splitCopy sql).2.map (fun q => [q.1, q.2]))).map
      (execPart env cid))

/-- The loop of `execute_sql_file` over the `(database, text)` pairs produced
    by the backslash-connect split.  `connVar` is the Python `conn` variable:
    it keeps referencing the last assigned connection even after that
    connection was closed.  Returns the trace, the final value of `conn`, and
    whether the loop finished without a connection error. -/
def runSegs (env : Env) : Option Nat → Nat → List (List Char × List Char) →
    List Ev × Option Nat × Bool
  | connVar, _, [] => ([], connVar, true)
  | connVar, next, (db, txt) :: rest =>
    let closeEvs : List Ev :=
      match connVar with
      | some i => [Ev.closeC i]
      | none => []
    if env.connectOk db then
      let segEvs := if stripNonempty txt then execStatements env next txt else []
      let p := runSegs env (some next) (next + 1) rest
      (closeEvs ++ Ev.openC next db :: (segEvs ++ p.1), p.2.1, p.2.2)
    else
      (closeEvs, connVar, false)

/-- `execute_sql_file` on the content of an existing file: execute the text
    before the first backslash-connect directive on the default database when
    it is non-blank, then run the segment loop; the `finally` block closes
    the `conn` variable if it is set.  Returns the trace and the returned
    success flag. -/
def runFile (env : Env) (content : List Char) : List Ev × Bool :=
  let parsed := splitConnect content
  if stripNonempty parsed.1 then
    if env.connectOk defaultDbName then
      let p := runSegs env (some 0) 1 parsed.2
      let fin : List Ev :=
        match p.2.1 with
        | some i => [Ev.closeC i]
        | none => []
      (Ev.openC 0 defaultDbName :: (execStatements env 0 parsed.1 ++ p.1 ++ fin),
        p.2.2)
    else ([], false)
  else
    let p := runSegs env none 0 parsed.2
    let fin : List Ev :=
      match p.2.1 with
      | some i => [Ev.closeC i]
      | none => []
    (p.1 ++ fin, p.2.2)

/-- `execute_sql_file` including the missing-file check: a missing file
    yields no events and a `False` result. -/
def runProgram (env : Env) (file : Option (List Char)) : List Ev × Bool :=
  match file with
  | none => ([], false)
  | some content => runFile env content

/-- The connection an event belongs to, if any. -/
def connOf : Ev → Option Nat
  | Ev.openC i _ => some i
  | Ev.closeC i => some i
  | Ev.exec i _ => some i
  | Ev.commit i => some i
  | Ev.rollback i => some i
  | Ev.copy i _ _ => some i
  | Ev.warn _ => none

/-- Whether an event opens or closes a connection. -/
def isConnEv : Ev → Bool
  | Ev.openC _ _ => true
  | Ev.closeC _ => true
  | _ => false

/-- Whether an event is a printed warning. -/
def isWarn : Ev → Bool
  | Ev.warn _ => true
  | _ => false

/-- The multiset of open connections after one event. -/
def evStep (s : List Nat) : Ev → List Nat
  | Ev.openC i _ => i :: s
  | Ev.closeC i => s.erase i
  | _ => s

/-- The multiset of open connections after a trace. -/
def openedAfter (s : List Nat) (tr : List Ev) : List Nat := tr.foldl evStep s

/-- The largest number of simultaneously open connections along a trace. -/
def maxOpen (s : List Nat) : List Ev → Nat
  | [] => s.length
  | e :: es => max s.length (maxOpen (evStep s e) es)

/-- An environment where every statement succeeds and every connection
    attempt succeeds. -/
def envAllOk : Env :=
  { execErr := fun _ => none, copyErr := fun _ => none, connectOk := fun _ => true }

example : runFile envAllOk "SELECT 1;\n\\connect a\nSELECT 2;".data
    = ([Ev.openC 0 defaultDbName, Ev.exec 0 "SELECT 1;\n".data, Ev.commit 0,
        Ev.closeC 0, Ev.openC 1 "a".data, Ev.exec 1 "\nSELECT 2;\n".data,
        Ev.commit 1, Ev.closeC 1], true) := by decide

example : runFile envAllOk "COPY t (a) FROM stdin;\n1\n2\n\\.\n".data
    = ([Ev.openC 0 defaultDbName,
        Ev.copy 0 "COPY t (a) FROM stdin;".data "1\n2".data, Ev.commit 0,
        Ev.closeC 0], true) := by decide

/-! ## Claims about `split_sql_statements` (C1, C7, C9) -/

theorem updateQuote_no_marker {dq : Option (List Char)} {line : List Char}
    (h : hasDollarMarker line = false) : updateQuote dq line = dq := by
  unfold updateQuote
  simp [h]

/-- A dollar-quoted CREATE FUNCTION statement whose body holds internal
    semicolons. -/
def sampleFunctionSql : List Char :=
  "CREATE FUNCTION f() RETURNS integer AS $$\nBEGIN\n RETURN 1;\nEND;\n$$ LANGUAGE plpgsql;".data

/-- C1: while a dollar-quote tag is active after a line's bookkeeping, the
    line never terminates the current statement (even when it ends in `;`);
    consequently a statement holding a dollar-quoted function body with
    internal semicolons is emitted as a single statement (split count 1). -/
theorem C1_semicolon_splits_only_outside_dollar_quote :
    (∀ (dq : Option (List Char)) (cur line : List Char) (ls : List (List Char)),
      (updateQuote dq line).isNone = false →
      splitAux dq cur (line :: ls)
        = splitAux (updateQuote dq line) (cur ++ line ++ ['\n']) ls)
    ∧ (split_sql_statements sampleFunctionSql).length = 1 := by
  constructor
  · intro dq cur line ls h
    simp only [splitAux, h, Bool.false_and, Bool.false_eq_true, if_false]
  · decide

theorem C1_semicolon_splits_only_outside_dollar_quote_witness :
    splitAux none [] ["SELECT $$a;".data, "b;".data]
      = splitAux (updateQuote none "SELECT $$a;".data)
          ([] ++ "SELECT $$a;".data ++ ['\n']) ["b;".data] :=
  C1_semicolon_splits_only_outside_dollar_quote.1 none []
    "SELECT $$a;".data ["b;".data] (by decide)

/-- A statement whose dollar-quoted body opens and closes on one line,
    followed by further semicolon-terminated lines. -/
def sampleOneLineQuote : List Char :=
  "SELECT $f$a;b$f$;\nSELECT 1;\nSELECT 2;".data

/-- As `sampleOneLineQuote` but a later line holds the tag text again. -/
def sampleOneLineQuoteClosed : List Char :=
  "SELECT $f$a;b$f$;\nSELECT 1;\n$f$;\nSELECT 2;".data

/-- C9: when no tag is active, a line with a marker stores its first marker
    as the new tag (ignoring any closing marker on the same line); the tag
    then persists over every line not holding its text, so a body that opens
    and closes on one line suppresses all splitting until some later line
    holds the tag text. -/
theorem C9_first_marker_captured_not_cleared_same_line :
    (∀ line : List Char, hasDollarMarker line = true →
      updateQuote none line = firstMarker line)
    ∧ (∀ (tag line : List Char), containsSub tag line = false →
      updateQuote (some tag) line = some tag)
    ∧ (split_sql_statements sampleOneLineQuote).length = 1
    ∧ (split_sql_statements sampleOneLineQuoteClosed).length = 2 := by
  refine ⟨?_, ?_, by decide, by decide⟩
  · intro line h
    unfold updateQuote
    simp [h]
  · intro tag line h
    unfold updateQuote
    cases hm : hasDollarMarker line with
    | false => simp
    | true => simp [h]

theorem C9_first_marker_captured_not_cleared_same_line_witness :
    updateQuote none "SELECT $f$a;b$f$;".data
      = firstMarker "SELECT $f$a;b$f$;".data :=
  C9_first_marker_captured_not_cleared_same_line.1
    "SELECT $f$a;b$f$;".data (by decide)

theorem splitOnNl_ne_nil (t : List Char) : splitOnNl t ≠ [] := by
  cases t with
  | nil => simp [splitOnNl]
  | cons c cs =>
    unfold splitOnNl
    split_ifs
    · simp
    · cases splitOnNl cs <;> simp

theorem catLists_map_splitOnNl (t : List Char) :
    catLists ((splitOnNl t).map (fun l => l ++ ['\n'])) = t ++ ['\n'] := by
  induction t with
  | nil => rfl
  | cons c cs ih =>
    unfold splitOnNl
    split_ifs with hc
    · subst hc
      simp only [List.map_cons, catLists, List.nil_append]
      rw [ih]
      simp
    · cases hs : splitOnNl cs with
      | nil => exact absurd hs (splitOnNl_ne_nil cs)
      | cons l ls =>
        rw [hs] at ih
        simp only [List.map_cons, catLists, List.cons_append] at ih ⊢
        rw [ih]

theorem splitAux_nil (dq : Option (List Char)) (cur : List Char) :
    splitAux dq cur [] = if stripNonempty cur then [cur] else [] := rfl

theorem splitAux_cons (dq : Option (List Char)) (cur line : List Char)
    (ls : List (List Char)) :
    splitAux dq cur (line :: ls)
      = if ((updateQuote dq line).isNone && endsSemi line) = true
        then (cur ++ line ++ ['\n']) :: splitAux (updateQuote dq line) [] ls
        else splitAux (updateQuote dq line) (cur ++ line ++ ['\n']) ls := rfl

theorem splitAux_roundtrip :
    ∀ (ls : List (List Char)) (cur : List Char), ls ≠ [] →
    (∀ l ∈ ls, hasDollarMarker l = false) →
    endsSemi (ls.getLastD []) = true →
    catLists (splitAux none cur ls)
      = cur ++ catLists (ls.map (fun l => l ++ ['\n'])) := by
  intro ls
  induction ls with
  | nil => intro cur h; exact absurd rfl h
  | cons l rest ih =>
    intro cur _ hnd hlast
    have hl : hasDollarMarker l = false := hnd l (by simp)
    cases rest with
    | nil =>
      simp only [List.getLastD_cons, List.getLastD_nil] at hlast
      rw [splitAux_cons, updateQuote_no_marker hl]
      simp [hlast, splitAux_nil, stripNonempty, catLists]
    | cons l2 rest2 =>
      have hrest : (∀ x ∈ l2 :: rest2, hasDollarMarker x = false) := by
        intro x hx
        exact hnd x (by simp [hx])
      have hlast2 : endsSemi ((l2 :: rest2).getLastD []) = true := by
        simpa using hlast
      rw [splitAux_cons, updateQuote_no_marker hl]
      cases he : endsSemi l with
      | true =>
        simp only [Option.isNone_none, Bool.true_and, he, if_true, catLists]
        rw [ih [] (by simp) hrest hlast2, List.nil_append]
        simp [catLists]
      | false =>
        simp only [Option.isNone_none, Bool.true_and, he, Bool.false_eq_true,
          if_false]
        rw [ih (cur ++ l ++ ['\n']) (by simp) hrest hlast2]
        simp [catLists]

/-- C7: on an input whose lines hold no dollar-quote markers and whose last
    line ends in `;`, splitting and concatenating the emitted statements
    reproduces the whole input text (up to the final newline the line loop
    appends): no text is lost and the statement set is exactly preserved. -/
theorem C7_split_then_join_roundtrip (t : List Char)
    (hnd : ∀ l ∈ splitOnNl t, hasDollarMarker l = false)
    (hlast : endsSemi ((splitOnNl t).getLastD []) = true) :
    catLists (split_sql_statements t) = t ++ ['\n'] := by
  unfold split_sql_statements
  rw [splitAux_roundtrip (splitOnNl t) [] (splitOnNl_ne_nil t) hnd hlast,
    List.nil_append, catLists_map_splitOnNl]

theorem C7_split_then_join_roundtrip_witness :
    catLists (split_sql_statements "SELECT 1;\nSELECT 2;".data)
      = "SELECT 1;\nSELECT 2;".data ++ ['\n'] :=
  C7_split_then_join_roundtrip "SELECT 1;\nSELECT 2;".data
    (by decide) (by decide)

/-! ## Claims about segmentation (C4, C5) -/

/-- Whether the content holds any match of `\\connect\s+(\w+)`. -/
def hasConnect (l : List Char) : Bool :=
  l.tails.any (fun t => (matchConnect t).isSome)

/-- The segment list of a run: the text before the first directive targets
    the initially configured database, then one segment per directive. -/
def dumpSegments (content : List Char) : List (List Char × List Char) :=
  (defaultDbName, (splitConnect content).1) :: (splitConnect content).2

theorem splitConnect_no_match {content : List Char}
    (h : hasConnect content = false) : splitConnect content = (content, []) := by
  induction content with
  | nil => rfl
  | cons c cs ih =>
    unfold hasConnect at h
    rw [List.tails_cons, List.any_cons, Bool.or_eq_false_iff] at h
    obtain ⟨h1, h2⟩ := h
    have hm : matchConnect (c :: cs) = none := by
      cases hm : matchConnect (c :: cs) with
      | none => rfl
      | some p => rw [hm] at h1; simp at h1
    rw [splitConnect_cons_nomatch hm, ih h2]

/-- C4: an input with zero backslash-connect directives yields exactly one
    segment, and that segment targets the configured default database. -/
theorem C4_no_connect_single_default_segment (content : List Char)
    (h : hasConnect content = false) :
    dumpSegments content = [(defaultDbName, content)] := by
  unfold dumpSegments
  rw [splitConnect_no_match h]

theorem C4_no_connect_single_default_segment_witness :
    dumpSegments "CREATE TABLE t (a int);\nSELECT 1;".data
      = [(defaultDbName, "CREATE TABLE t (a int);\nSELECT 1;".data)] :=
  C4_no_connect_single_default_segment
    "CREATE TABLE t (a int);\nSELECT 1;".data (by decide)

/-! ## Event shape of `execute_sql_statements` traces -/

/-- Events an `execute_sql_statements` call on connection `cid` may emit:
    statement-level events on `cid`, or printed warnings. -/
def plainFor (cid : Nat) : Ev → Bool
  | Ev.exec i _ => i == cid
  | Ev.commit i => i == cid
  | Ev.rollback i => i == cid
  | Ev.copy i _ _ => i == cid
  | Ev.warn _ => true
  | Ev.openC _ _ => false
  | Ev.closeC _ => false

theorem mem_catLists {α : Type} {x : α} {ls : List (List α)} :
    x ∈ catLists ls ↔ ∃ l ∈ ls, x ∈ l := by
  induction ls with
  | nil => simp [catLists]
  | cons l ls ih => simp [catLists, ih]

theorem all_catLists {α : Type} (p : α → Bool) (ls : List (List α)) :
    (catLists ls).all p = ls.all (fun l => l.all p) := by
  induction ls with
  | nil => rfl
  | cons l ls ih => simp [catLists, ih]

theorem execOrd_all (env : Env) (cid : Nat) (st : List Char) :
    (execOrd env cid st).all (plainFor cid) = true := by
  unfold execOrd
  split_ifs
  · rfl
  · cases env.execErr st with
    | none => simp [plainFor]
    | some msg =>
      dsimp only
      split_ifs <;> simp [plainFor]

theorem execPart_all (env : Env) (cid : Nat) (part : List Char) :
    (execPart env cid part).all (plainFor cid) = true := by
  unfold execPart
  split_ifs
  · rfl
  · dsimp only
    cases env.copyErr ((splitOnNl part).headD []) <;> simp [plainFor]
  · rw [all_catLists, List.all_eq_true]
    intro l hl
    rw [List.mem_map] at hl
    obtain ⟨st, -, hst⟩ := hl
    rw [← hst]
    exact execOrd_all env cid st

theorem execStatements_all (env : Env) (cid : Nat) (sql : List Char) :
    (execStatements env cid sql).all (plainFor cid) = true := by
  unfold execStatements
  rw [all_catLists, List.all_eq_true]
  intro l hl
  rw [List.mem_map] at hl
  obtain ⟨part, -, hpart⟩ := hl
  rw [← hpart]
  exact execPart_all env cid part

theorem plainFor_execStatements {env : Env} {cid : Nat} {sql : List Char}
    {e : Ev} (h : e ∈ execStatements env cid sql) : plainFor cid e = true :=
  List.all_eq_true.mp (execStatements_all env cid sql) e h

theorem plainFor_connOf {cid : Nat} {e : Ev} (h : plainFor cid e = true) :
    connOf e = none ∨ connOf e = some cid := by
  cases e <;> simp [plainFor] at h ⊢ <;> simp [connOf, h]

theorem plainFor_not_connEv {cid : Nat} {e : Ev} (h : plainFor cid e = true) :
    isConnEv e = false := by
  cases e <;> simp [plainFor] at h ⊢ <;> simp [isConnEv]

theorem matchConnect_none_of_head {c : Char} {cs : List Char}
    (h : c ≠ '\\') : matchConnect (c :: cs) = none := by
  unfold matchConnect
  have : "\\connect".data.isPrefixOf (c :: cs) = false := by
    show ('\\' :: "connect".data).isPrefixOf (c :: cs) = false
    simp only [List.isPrefixOf]
    simp [h, Ne.symm h]
  rw [this]
  simp

theorem splitConnect_append_no_bs {t r : List Char}
    (h : ∀ c ∈ t, c ≠ '\\') :
    splitConnect (t ++ r)
      = (t ++ (splitConnect r).1, (splitConnect r).2) := by
  induction t with
  | nil => simp
  | cons c t ih =>
    have hc : c ≠ '\\' := h c (by simp)
    rw [List.cons_append, splitConnect_cons_nomatch (matchConnect_none_of_head hc),
      ih (fun x hx => h x (by simp [hx]))]
    simp

theorem takeWhile_all_append {p : Char → Bool} {l r : List Char}
    (h : ∀ c ∈ l, p c = true) :
    (l ++ r).takeWhile p = l ++ r.takeWhile p := by
  induction l with
  | nil => simp
  | cons c l ih =>
    rw [List.cons_append, List.takeWhile_cons, h c (by simp),
      ih (fun x hx => h x (by simp [hx]))]
    simp

theorem dropWhile_all_append {p : Char → Bool} {l r : List Char}
    (h : ∀ c ∈ l, p c = true) :
    (l ++ r).dropWhile p = r.dropWhile p := by
  induction l with
  | nil => simp
  | cons c l ih =>
    rw [List.cons_append, List.dropWhile_cons, h c (by simp)]
    exact ih (fun x hx => h x (by simp [hx]))

theorem isWordChar_not_WS {c : Char} (h : isWordChar c = true) :
    isWS c = false := by
  cases hw : isWS c with
  | false => rfl
  | true =>
    unfold isWS at hw
    unfold isWordChar at h
    rcases Bool.or_eq_true_iff.mp hw with h1 | h1
    rcases Bool.or_eq_true_iff.mp h1 with h2 | h2
    rcases Bool.or_eq_true_iff.mp h2 with h3 | h3
    rcases Bool.or_eq_true_iff.mp h3 with h4 | h4
    rcases Bool.or_eq_true_iff.mp h4 with h5 | h5
    all_goals
      first
      | (rw [decide_eq_true_iff] at h5; subst h5; simp at h)
      | (rw [decide_eq_true_iff] at h4; subst h4; simp at h)
      | (rw [decide_eq_true_iff] at h3; subst h3; simp at h)
      | (rw [decide_eq_true_iff] at h2; subst h2; simp at h)
      | (rw [decide_eq_true_iff] at h1; subst h1; simp at h)

theorem splitConnect_no_bs {t : List Char} (h : ∀ c ∈ t, c ≠ '\\') :
    splitConnect t = (t, []) := by
  have := splitConnect_append_no_bs (r := []) h
  simpa [splitConnect_nil] using this

theorem splitConnect_match {l db rest : List Char} (hne : l ≠ [])
    (h : matchConnect l = some (db, rest)) :
    splitConnect l
      = ([], (db, (splitConnect rest).1) :: (splitConnect rest).2) := by
  cases l with
  | nil => exact absurd rfl hne
  | cons c cs => exact splitConnect_cons_match h

theorem matchConnect_directive {a t : List Char}
    (ha : a ≠ []) (haw : ∀ c ∈ a, isWordChar c = true)
    (ht : isWordChar (t.headD '\\') = false) :
    matchConnect ("\\connect ".data ++ (a ++ t)) = some (a, t) := by
  obtain ⟨a0, a', rfl⟩ := List.exists_cons_of_ne_nil ha
  have ha0 : isWordChar a0 = true := haw a0 (by simp)
  have ha0ws : isWS a0 = false := isWordChar_not_WS ha0
  have htw : t.takeWhile isWordChar = [] := by
    cases t with
    | nil => rfl
    | cons c cs =>
      simp only [List.headD_cons] at ht
      simp [List.takeWhile_cons, ht]
  have hdata : ("\\connect ".data : List Char)
      = '\\' :: 'c' :: 'o' :: 'n' :: 'n' :: 'e' :: 'c' :: 't' :: [' '] := rfl
  rw [hdata]
  simp only [List.cons_append, List.nil_append]
  unfold matchConnect
  have hpre : "\\connect".data.isPrefixOf
      ('\\' :: 'c' :: 'o' :: 'n' :: 'n' :: 'e' :: 'c' :: 't' :: ' '
       :: a0 :: (a' ++ t)) = true := by
    rw [List.isPrefixOf_iff_prefix]
    exact ⟨' ' :: a0 :: (a' ++ t), rfl⟩
  have hdrop : ('\\' :: 'c' :: 'o' :: 'n' :: 'n' :: 'e' :: 'c' :: 't' :: ' '
     :: a0 :: (a' ++ t)).drop 8 = ' ' :: a0 :: (a' ++ t) := rfl
  have htk : (' ' :: a0 :: (a' ++ t)).takeWhile isWS = [' '] := by
    rw [List.takeWhile_cons_of_pos (by rfl),
      List.takeWhile_cons_of_neg (by simp [ha0ws])]
  have hdw : (' ' :: a0 :: (a' ++ t)).dropWhile isWS = a0 :: (a' ++ t) := by
    rw [List.dropWhile_cons_of_pos (by rfl),
      List.dropWhile_cons_of_neg (by simp [ha0ws])]
  have hw : (a0 :: (a' ++ t)).takeWhile isWordChar = a0 :: a' := by
    have h2 : ((a0 :: a') ++ t).takeWhile isWordChar = (a0 :: a') ++ [] := by
      rw [takeWhile_all_append haw, htw]
    simpa using h2
  have hdl : (a0 :: (a' ++ t)).drop (a0 :: a').length = t := by
    have h2 := List.drop_left (a0 :: a') t
    simp only [List.cons_append] at h2
    exact h2
  rw [hpre, hdrop, htk, hdw, hw, hdl]
  simp

/-- An input with two backslash-connect directives: text `t0`, then
    `\connect a`, text `t1`, `\connect b`, text `t2`. -/
def connectTwice (t0 a t1 b t2 : List Char) : List Char :=
  t0 ++ "\\connect ".data ++ (a ++ (t1 ++ ("\\connect ".data ++ (b ++ t2))))

theorem splitConnect_connectTwice {t0 a t1 b t2 : List Char}
    (h0 : ∀ c ∈ t0, c ≠ '\\') (h1 : ∀ c ∈ t1, c ≠ '\\')
    (h2 : ∀ c ∈ t2, c ≠ '\\')
    (ha : a ≠ []) (haw : ∀ c ∈ a, isWordChar c = true)
    (hb : b ≠ []) (hbw : ∀ c ∈ b, isWordChar c = true)
    (ht1 : isWordChar (t1.headD '\\') = false)
    (ht2 : isWordChar (t2.headD '\\') = false) :
    splitConnect (connectTwice t0 a t1 b t2) = (t0, [(a, t1), (b, t2)]) := by
  have hh1 : isWordChar
      ((t1 ++ ("\\connect ".data ++ (b ++ t2))).headD '\\') = false := by
    cases t1 with
    | nil => rfl
    | cons c cs => simpa using ht1
  have hm1 : matchConnect
      ("\\connect ".data ++ (a ++ (t1 ++ ("\\connect ".data ++ (b ++ t2)))))
      = some (a, t1 ++ ("\\connect ".data ++ (b ++ t2))) :=
    matchConnect_directive ha haw hh1
  have hm2 : matchConnect ("\\connect ".data ++ (b ++ t2)) = some (b, t2) :=
    matchConnect_directive hb hbw ht2
  unfold connectTwice
  rw [List.append_assoc, splitConnect_append_no_bs h0,
    splitConnect_match (by simp) hm1, splitConnect_append_no_bs h1,
    splitConnect_match (by simp) hm2, splitConnect_no_bs h2]
  simp

/-- C5: an input `t0 \connect a t1 \connect b t2` yields exactly the two
    post-initial segments `(a, t1)` then `(b, t2)`; the segment loop closes
    the connection opened for `a` before opening a fresh one for `b`, and no
    event of `b`'s segment runs on `a`'s connection. -/
theorem C5_two_connects_fresh_connection (env : Env) (t0 a t1 b t2 : List Char)
    (h0 : ∀ c ∈ t0, c ≠ '\\') (h1 : ∀ c ∈ t1, c ≠ '\\')
    (h2 : ∀ c ∈ t2, c ≠ '\\')
    (ha : a ≠ []) (haw : ∀ c ∈ a, isWordChar c = true)
    (hb : b ≠ []) (hbw : ∀ c ∈ b, isWordChar c = true)
    (ht1 : isWordChar (t1.headD '\\') = false)
    (ht2 : isWordChar (t2.headD '\\') = false)
    (hca : env.connectOk a = true) (hcb : env.connectOk b = true) :
    (splitConnect (connectTwice t0 a t1 b t2)).2 = [(a, t1), (b, t2)]
    ∧ (∀ (cv : Option Nat) (n : Nat),
        (runSegs env cv n [(a, t1), (b, t2)]).1
          = (match cv with
              | some i => [Ev.closeC i]
              | none => [])
            ++ Ev.openC n a
             :: ((if stripNonempty t1 then execStatements env n t1 else [])
                ++ Ev.closeC n
                 :: Ev.openC (n + 1) b
                   :: ((if stripNonempty t2 then execStatements env (n + 1) t2
                        else []) ++ []))
    ∧ (∀ e ∈ execStatements env (n + 1) t2, connOf e ≠ some n)) := by
  refine ⟨?_, ?_⟩
  · rw [splitConnect_connectTwice h0 h1 h2 ha haw hb hbw ht1 ht2]
  · intro cv n
    constructor
    · simp [runSegs, hca, hcb]
    · intro e he
      rcases plainFor_connOf (plainFor_execStatements he) with h | h <;>
        simp [h]

theorem C5_two_connects_fresh_connection_witness :
    (splitConnect (connectTwice [] "a".data "\nx;\n".data "b".data
        "\ny;\n".data)).2
      = [("a".data, "\nx;\n".data), ("b".data, "\ny;\n".data)] :=
  (C5_two_connects_fresh_connection envAllOk [] "a".data "\nx;\n".data
    "b".data "\ny;\n".data (by decide) (by decide) (by decide) (by decide)
    (by decide) (by decide) (by decide) (by decide) (by decide) rfl rfl).1

/-! ## Claim C6: the returned success flag -/

theorem runSegs_flag (env : Env) :
    ∀ (pairs : List (List Char × List Char)) (cv : Option Nat) (n : Nat),
    (runSegs env cv n pairs).2.2
      = pairs.all (fun p => env.connectOk p.1) := by
  intro pairs
  induction pairs with
  | nil => intro cv n; rfl
  | cons q rest ih =>
    intro cv n
    obtain ⟨db, txt⟩ := q
    unfold runSegs
    split_ifs with hc <;> simp [hc, ih]

theorem runFile_flag (env : Env) (content : List Char) :
    (runFile env content).2
      = ((!stripNonempty (splitConnect content).1
            || env.connectOk defaultDbName)
          && (splitConnect content).2.all (fun p => env.connectOk p.1)) := by
  by_cases h1 : stripNonempty (splitConnect content).1 = true
  · by_cases h2 : env.connectOk defaultDbName = true
    · simp [runFile, h1, h2, runSegs_flag]
    · simp [runFile, h1, h2]
  · simp [runFile, h1, runSegs_flag]

/-- C6: the success flag is `True` exactly when the file exists and every
    attempted connection (the default one when the pre-directive text is
    non-blank, and one per directive segment) succeeds; it never depends on
    which statements fail, only a missing file or a connection-level error
    makes it `False`. -/
theorem C6_success_flag_ignores_statement_failures :
    (∀ (env : Env) (file : Option (List Char)),
      ((runProgram env file).2 = true ↔
        ∃ content, file = some content
          ∧ (stripNonempty (splitConnect content).1 = false
              ∨ env.connectOk defaultDbName = true)
          ∧ ∀ p ∈ (splitConnect content).2, env.connectOk p.1 = true))
    ∧ (∀ (env env' : Env) (file : Option (List Char)),
        env.connectOk = env'.connectOk →
        (runProgram env file).2 = (runProgram env' file).2) := by
  constructor
  · intro env file
    cases file with
    | none => simp [runProgram]
    | some content =>
      simp only [runProgram, runFile_flag, Option.some_inj]
      constructor
      · intro h
        rw [Bool.and_eq_true, Bool.or_eq_true] at h
        obtain ⟨h1, h2⟩ := h
        refine ⟨content, rfl, ?_, ?_⟩
        · rcases h1 with h1 | h1
          · exact Or.inl (by simpa using h1)
          · exact Or.inr h1
        · exact fun p hp => List.all_eq_true.mp h2 p hp
      · rintro ⟨c, hc, h1, h2⟩
        subst hc
        rw [Bool.and_eq_true, Bool.or_eq_true]
        refine ⟨?_, List.all_eq_true.mpr h2⟩
        rcases h1 with h1 | h1
        · exact Or.inl (by simp [h1])
        · exact Or.inr h1
  · intro env env' file h
    cases file with
    | none => rfl
    | some content =>
      simp only [runProgram, runFile_flag, h]

theorem C6_success_flag_ignores_statement_failures_witness :
    (runProgram envAllOk (some "SELECT 1;".data)).2 = true :=
  (C6_success_flag_ignores_statement_failures.1 envAllOk
      (some "SELECT 1;".data)).mpr
    ⟨"SELECT 1;".data, rfl, Or.inr rfl, by decide⟩

/-! ## Claim C2: the "already exists" tolerance policy

The code rolls such a statement back and continues, but prints the warning
only when the message does NOT hold `already exists`: an `already exists`
skip is silent.  The claim as stated (a warning is logged and every skipped
statement is printed) is refuted below and amended. -/

/-- An environment where exactly the first CREATE TABLE statement raises an
    `already exists` error. -/
def envAE : Env :=
  { execErr := fun st =>
      if st = "CREATE TABLE t (a int);\n".data
      then some "relation already exists".data
      else none,
    copyErr := fun _ => none,
    connectOk := fun _ => true }

theorem C2_already_exists_counterexample :
    (runFile envAE "CREATE TABLE t (a int);\nSELECT 2;".data).1
      = [Ev.openC 0 defaultDbName,
         Ev.exec 0 "CREATE TABLE t (a int);\n".data, Ev.rollback 0,
         Ev.exec 0 "SELECT 2;\n".data, Ev.commit 0, Ev.closeC 0]
    ∧ (runFile envAE "CREATE TABLE t (a int);\nSELECT 2;".data).1.filter isWarn
      = [] := by
  constructor
  · decide
  · decide

/-- C2 (amended): an error whose lowered message holds `already exists` is
    non-fatal — the statement is rolled back (not committed) and the loop goes
    on with the remaining statements — but no warning is printed for it; a
    warning is printed exactly for the other errors, which are also rolled
    back and skipped. -/
theorem C2_already_exists_rolled_back_without_warning :
    (∀ (env : Env) (cid : Nat) (st msg : List Char),
      stripNonempty st = true → env.execErr st = some msg →
      containsSub "already exists".data (msg.map Char.toLower) = true →
      execOrd env cid st = [Ev.exec cid st, Ev.rollback cid])
    ∧ (∀ (env : Env) (cid : Nat) (st msg : List Char),
      stripNonempty st = true → env.execErr st = some msg →
      containsSub "already exists".data (msg.map Char.toLower) = false →
      execOrd env cid st = [Ev.exec cid st, Ev.warn msg, Ev.rollback cid])
    ∧ (∀ (env : Env) (cid : Nat) (part : List Char),
      stripNonempty part = true → isCopyStart part = false →
      execPart env cid part
        = catLists ((split_sql_statements part).map (execOrd env cid))) := by
  refine ⟨?_, ?_, ?_⟩
  · intro env cid st msg h1 h2 h3
    simp [execOrd, h1, h2, h3]
  · intro env cid st msg h1 h2 h3
    simp [execOrd, h1, h2, h3]
  · intro env cid part h1 h2
    simp [execPart, h1, h2]

theorem C2_already_exists_rolled_back_without_warning_witness :
    execOrd envAE 0 "CREATE TABLE t (a int);\n".data
      = [Ev.exec 0 "CREATE TABLE t (a int);\n".data, Ev.rollback 0] :=
  C2_already_exists_rolled_back_without_warning.1 envAE 0
    "CREATE TABLE t (a int);\n".data "relation already exists".data
    (by decide) (by decide) (by decide)

/-! ## Claim C3: COPY-from-stdin blocks -/

/-- The literal data lines of a COPY payload, each with its newline. -/
def J (data : List (List Char)) : List Char :=
  catLists (data.map (fun l => l ++ ['\n']))

/-- A COPY header line for table spec `tbl`. -/
def copyCmdOf (tbl : List Char) : List Char :=
  "COPY ".data ++ (tbl ++ " FROM stdin;".data)

/-- A well-formed COPY block: header line, data lines, `\.` terminator. -/
def copyBlock (tbl : List Char) (data : List (List Char)) : List Char :=
  copyCmdOf tbl ++ ('\n' :: (J data ++ ['\\', '.', '\n']))

theorem splitOnNl_append_no_nl {A rest : List Char} (h : ∀ c ∈ A, c ≠ '\n') :
    splitOnNl (A ++ ('\n' :: rest)) = A :: splitOnNl rest := by
  induction A with
  | nil => simp [splitOnNl]
  | cons c A ih =>
    have hc : c ≠ '\n' := h c (by simp)
    rw [List.cons_append]
    conv_lhs => unfold splitOnNl
    rw [if_neg hc, ih (fun x hx => h x (by simp [hx]))]

theorem splitOnNl_J {data : List (List Char)}
    (h : ∀ l ∈ data, ∀ c ∈ l, c ≠ '\n') :
    splitOnNl (J data ++ ['\\', '.', '\n']) = data ++ [['\\', '.'], []] := by
  induction data with
  | nil => rfl
  | cons d ds ih =>
    have hd : ∀ c ∈ d, c ≠ '\n' := h d (by simp)
    have hJ : J (d :: ds) ++ ['\\', '.', '\n']
        = d ++ ('\n' :: (J ds ++ ['\\', '.', '\n'])) := by
      simp [J, catLists]
    rw [hJ, splitOnNl_append_no_nl hd, ih (fun l hl => h l (by simp [hl]))]
    rfl

theorem copyData_exact :
    ∀ (data : List (List Char)) (b : Bool),
    (∀ l ∈ data, stripNonempty l = true ∧ stripList l ≠ ['\\', '.']) →
    copyData b (data ++ [['\\', '.'], []]) = data := by
  intro data
  induction data with
  | nil =>
    intro b _
    rw [List.nil_append]
    unfold copyData
    rw [if_pos (by decide)]
  | cons d ds ih =>
    intro b h
    obtain ⟨h1, h2⟩ := h d (by simp)
    rw [List.cons_append]
    unfold copyData
    rw [if_neg h2]
    rw [show (b || stripNonempty d) = true by simp [h1]]
    simp only [if_true]
    rw [ih true (fun l hl => h l (by simp [hl]))]

theorem findSplit_skip_no_nl {d r : List Char} (h : ∀ c ∈ d, c ≠ '\n') :
    findSplit ['\n', '\\', '.', '\n'] (d ++ r)
      = (findSplit ['\n', '\\', '.', '\n'] r).map (fun q => (d ++ q.1, q.2)) := by
  induction d with
  | nil =>
    cases hq : findSplit ['\n', '\\', '.', '\n'] r with
    | none => simp [hq]
    | some q => simp [hq]
  | cons c d ih =>
    have hc : c ≠ '\n' := h c (by simp)
    have hnp : (['\n', '\\', '.', '\n'] : List Char).isPrefixOf
        (c :: (d ++ r)) = false := by
      show (('\n' == c) && _) = false
      have hb : ('\n' == c) = false := by
        rw [beq_eq_false_iff_ne]
        exact fun hx => hc hx.symm
      rw [hb, Bool.false_and]
    rw [List.cons_append]
    conv_lhs => unfold findSplit
    rw [hnp]
    simp only [Bool.false_eq_true, if_false]
    rw [ih (fun x hx => h x (by simp [hx]))]
    cases hq : findSplit ['\n', '\\', '.', '\n'] r with
    | none => rfl
    | some q => simp

theorem terminator_no_match {d r : List Char} (h1 : ∀ c ∈ d, c ≠ '\n')
    (h2 : stripNonempty d = true) (h3 : stripList d ≠ ['\\', '.']) :
    (['\n', '\\', '.', '\n'] : List Char).isPrefixOf
      ('\n' :: (d ++ ('\n' :: r))) = false := by
  show (('\n' == '\n') && (['\\', '.', '\n'] : List Char).isPrefixOf
    (d ++ ('\n' :: r))) = false
  rw [show ('\n' == '\n') = true from rfl, Bool.true_and]
  cases d with
  | nil => simp [stripNonempty] at h2
  | cons x xs =>
    cases xs with
    | nil =>
      show (('\\' == x) && (('.' == '\n') && _)) = false
      rw [show ('.' == '\n') = false from rfl, Bool.false_and, Bool.and_false]
    | cons y ys =>
      cases ys with
      | nil =>
        by_cases hx : x = '\\'
        · by_cases hy : y = '.'
          · subst hx; subst hy
            exact absurd (by decide) h3
          · show (_ && (('.' == y) && _)) = false
            rw [show ('.' == y) = false by
              rw [beq_eq_false_iff_ne]; exact fun hh => hy hh.symm]
            rw [Bool.false_and, Bool.and_false]
        · show (('\\' == x) && _) = false
          rw [show ('\\' == x) = false by
            rw [beq_eq_false_iff_ne]; exact fun hh => hx hh.symm]
          rw [Bool.false_and]
      | cons z zs =>
        have hz : z ≠ '\n' := h1 z (by simp)
        show (_ && (_ && (('\n' == z) && _))) = false
        rw [show ('\n' == z) = false by
          rw [beq_eq_false_iff_ne]; exact fun hh => hz hh.symm]
        rw [Bool.false_and, Bool.and_false, Bool.and_false]

theorem findSplit_copy_data :
    ∀ (data : List (List Char)),
    (∀ l ∈ data, (∀ c ∈ l, c ≠ '\n')
      ∧ stripNonempty l = true ∧ stripList l ≠ ['\\', '.']) →
    findSplit ['\n', '\\', '.', '\n'] ('\n' :: (J data ++ ['\\', '.', '\n']))
      = some (('\n' :: J data).dropLast, []) := by
  intro data
  induction data with
  | nil =>
    intro _
    decide
  | cons d ds ih =>
    intro h
    obtain ⟨hd1, hd2, hd3⟩ := h d (by simp)
    have hJ : ('\n' :: (J (d :: ds) ++ ['\\', '.', '\n']))
        = '\n' :: (d ++ ('\n' :: (J ds ++ ['\\', '.', '\n']))) := by
      simp [J, catLists]
    rw [hJ]
    conv_lhs => unfold findSplit
    rw [terminator_no_match hd1 hd2 hd3]
    simp only [Bool.false_eq_true, if_false]
    rw [findSplit_skip_no_nl hd1, ih (fun l hl => h l (by simp [hl]))]
    simp only [Option.map_some']
    have hJcons : J (d :: ds) = (d ++ ['\n']) ++ J ds := rfl
    have hJ2 : ('\n' :: J (d :: ds)).dropLast
        = '\n' :: (d ++ ('\n' :: J ds).dropLast) := by
      rw [hJcons,
        show ('\n' :: ((d ++ ['\n']) ++ J ds)) = ('\n' :: d) ++ ('\n' :: J ds)
          from by simp,
        List.dropLast_append_of_ne_nil _ (by simp)]
      simp
    rw [hJ2]

theorem matchCopyHeadFull_copy (tbl : List Char) (hne : tbl ≠ []) :
    matchCopyHeadFull (' ' :: (tbl ++ " FROM stdin".data)) = true := by
  have hrev : (' ' :: (tbl ++ " FROM stdin".data)).reverse
      = 'n' :: 'i' :: 'd' :: 't' :: 's' :: ' ' :: 'M' :: 'O' :: 'R' :: 'F' :: ' '
       :: (tbl.reverse ++ [' ']) := by
    rw [List.reverse_cons, List.reverse_append,
      show ((" FROM stdin".data).reverse : List Char)
        = ['n','i','d','t','s',' ','M','O','R','F',' '] from rfl]
    simp
  have hrevne : (tbl.reverse ++ [' ']).reverse = ' ' :: tbl := by
    simp
  have hemp : (tbl ++ [' ']).isEmpty = false := by
    cases tbl <;> rfl
  unfold matchCopyHeadFull
  rw [hrev]
  dsimp only
  rw [show ciPrefix "nidts".data
      ('n' :: 'i' :: 'd' :: 't' :: 's' :: ' ' :: 'M' :: 'O' :: 'R' :: 'F' :: ' ' ::(tbl.reverse ++ [' ']))
      = true from rfl]
  simp only [if_true]
  rw [show (('n' :: 'i' :: 'd' :: 't' :: 's' :: ' ' :: 'M' :: 'O' :: 'R' :: 'F' :: ' '
     ::(tbl.reverse ++ [' '])).drop 5)
      = ' ' :: 'M' :: 'O' :: 'R' :: 'F' :: ' ' ::(tbl.reverse ++ [' ']) from rfl]
  rw [show ((' ' :: 'M' :: 'O' :: 'R' :: 'F' :: ' ' ::(tbl.reverse ++ [' '])).takeWhile isWS)
      = [' '] from rfl]
  rw [show ((' ' :: 'M' :: 'O' :: 'R' :: 'F' :: ' ' ::(tbl.reverse ++ [' '])).dropWhile isWS)
      = 'M' :: 'O' :: 'R' :: 'F' :: ' ' ::(tbl.reverse ++ [' ']) from rfl]
  rw [show ciPrefix "morf".data ('M' :: 'O' :: 'R' :: 'F' :: ' ' ::(tbl.reverse ++ [' ']))
      = true from rfl]
  rw [show (List.drop 4 ('M' :: 'O' :: 'R' :: 'F' :: ' ' ::(tbl.reverse ++ [' '])))
      = ' ' ::(tbl.reverse ++ [' ']) from rfl]
  have hfin : ((' ' ::(tbl.reverse ++ [' '])).reverse) = ' ' :: (tbl ++ [' ']) := by
    rw [List.reverse_cons, hrevne]
    simp
  rw [hfin]
  simp [hemp, isWS]

theorem J_dropLast_append :
    ∀ data : List (List Char),
    ('\n' :: J data).dropLast ++ ['\n'] = '\n' :: J data := by
  intro data
  induction data with
  | nil => rfl
  | cons d ds ih =>
    have hsplit : ('\n' :: J (d :: ds)) = ('\n' :: d) ++ ('\n' :: J ds) := by
      rw [show J (d :: ds) = (d ++ ['\n']) ++ J ds from rfl]
      simp
    rw [hsplit, List.dropLast_append_of_ne_nil _ (by simp), List.append_assoc,
      ih]

theorem copyBlock_cons (tbl : List Char) (data : List (List Char)) :
    copyBlock tbl data
      = 'C' :: 'O' :: 'P' :: 'Y'
       :: ((' ' :: (tbl ++ " FROM stdin".data))
          ++ (';' :: ('\n' :: (J data ++ ['\\', '.', '\n'])))) := by
  unfold copyBlock copyCmdOf
  rw [show (" FROM stdin;".data : List Char)
      = " FROM stdin".data ++ [';'] from rfl,
    show ("COPY ".data : List Char) = 'C' :: 'O' :: 'P' :: 'Y' ::[' '] from rfl]
  simp

theorem matchCopy_copyBlock {tbl : List Char} {data : List (List Char)}
    (hne : tbl ≠ []) (hsemi : ∀ c ∈ tbl, c ≠ ';')
    (hd : ∀ l ∈ data, (∀ c ∈ l, c ≠ '\n')
      ∧ stripNonempty l = true ∧ stripList l ≠ ['\\', '.']) :
    matchCopy (copyBlock tbl data) = some (copyBlock tbl data, []) := by
  have hall : ∀ c ∈ (' ' :: (tbl ++ " FROM stdin".data)), (c != ';') = true := by
    intro c hc
    rcases List.mem_cons.mp hc with rfl | hc2
    · rfl
    · rcases List.mem_append.mp hc2 with h | h
      · rw [bne_iff_ne]
        exact hsemi c h
      · have hconc : ∀ x ∈ (" FROM stdin".data : List Char), (x != ';') = true := by
          decide
        exact hconc c h
  rw [copyBlock_cons]
  unfold matchCopy
  rw [show ciPrefix "copy".data
      ('C' :: 'O' :: 'P' :: 'Y'
       :: ((' ' :: (tbl ++ " FROM stdin".data))
          ++ (';' :: ('\n' :: (J data ++ ['\\', '.', '\n'])))))
      = true from rfl]
  simp only [if_true]
  rw [show List.drop 4
      ('C' :: 'O' :: 'P' :: 'Y'
       :: ((' ' :: (tbl ++ " FROM stdin".data))
          ++ (';' :: ('\n' :: (J data ++ ['\\', '.', '\n'])))))
      = (' ' :: (tbl ++ " FROM stdin".data))
          ++ (';' :: ('\n' :: (J data ++ ['\\', '.', '\n']))) from rfl]
  rw [takeWhile_all_append hall, dropWhile_all_append hall,
    List.takeWhile_cons_of_neg (by decide), List.dropWhile_cons_of_neg (by decide),
    List.append_nil]
  dsimp only
  rw [matchCopyHeadFull_copy tbl hne]
  simp only [if_true]
  rw [findSplit_copy_data data hd]
  dsimp only
  rw [show List.take 4
      ('C' :: 'O' :: 'P' :: 'Y'
       :: ((' ' :: (tbl ++ " FROM stdin".data))
          ++ (';' :: ('\n' :: (J data ++ ['\\', '.', '\n'])))))
      = ['C', 'O', 'P', 'Y'] from rfl]
  rw [show (('\n' :: J data).dropLast ++ ['\n', '\\', '.', '\n'])
      = (('\n' :: J data).dropLast ++ ['\n']) ++ ['\\', '.', '\n'] from by simp,
    J_dropLast_append data]
  simp

theorem splitCopy_copyBlock {tbl : List Char} {data : List (List Char)}
    (hne : tbl ≠ []) (hsemi : ∀ c ∈ tbl, c ≠ ';')
    (hd : ∀ l ∈ data, (∀ c ∈ l, c ≠ '\n')
      ∧ stripNonempty l = true ∧ stripList l ≠ ['\\', '.']) :
    splitCopy (copyBlock tbl data) = ([], [(copyBlock tbl data, [])]) := by
  have h := matchCopy_copyBlock hne hsemi hd
  rw [copyBlock_cons] at h ⊢
  rw [splitCopy_cons_match h, splitCopy_nil]

theorem isCopyStart_copyBlock {tbl : List Char} {data : List (List Char)}
    (hne : tbl ≠ []) (hsemi : ∀ c ∈ tbl, c ≠ ';') :
    isCopyStart (copyBlock tbl data) = true := by
  have hall : ∀ c ∈ (' ' :: (tbl ++ " FROM stdin".data)), (c != ';') = true := by
    intro c hc
    rcases List.mem_cons.mp hc with rfl | hc2
    · rfl
    · rcases List.mem_append.mp hc2 with h | h
      · rw [bne_iff_ne]
        exact hsemi c h
      · have hconc : ∀ x ∈ (" FROM stdin".data : List Char), (x != ';') = true := by
          decide
        exact hconc c h
  rw [copyBlock_cons]
  unfold isCopyStart
  rw [show ciPrefix "copy".data
      ('C' :: 'O' :: 'P' :: 'Y'
       :: ((' ' :: (tbl ++ " FROM stdin".data))
          ++ (';' :: ('\n' :: (J data ++ ['\\', '.', '\n'])))))
      = true from rfl]
  rw [show List.drop 4
      ('C' :: 'O' :: 'P' :: 'Y'
       :: ((' ' :: (tbl ++ " FROM stdin".data))
          ++ (';' :: ('\n' :: (J data ++ ['\\', '.', '\n'])))))
      = (' ' :: (tbl ++ " FROM stdin".data))
          ++ (';' :: ('\n' :: (J data ++ ['\\', '.', '\n']))) from rfl]
  rw [takeWhile_all_append hall, dropWhile_all_append hall,
    List.takeWhile_cons_of_neg (by decide), List.dropWhile_cons_of_neg (by decide),
    List.append_nil]
  rw [matchCopyHeadFull_copy tbl hne]
  simp

theorem splitOnNl_copyBlock {tbl : List Char} {data : List (List Char)}
    (htnl : ∀ c ∈ tbl, c ≠ '\n')
    (hd : ∀ l ∈ data, (∀ c ∈ l, c ≠ '\n')
      ∧ stripNonempty l = true ∧ stripList l ≠ ['\\', '.']) :
    splitOnNl (copyBlock tbl data)
      = copyCmdOf tbl :: (data ++ [['\\', '.'], []]) := by
  have hnl : ∀ c ∈ copyCmdOf tbl, c ≠ '\n' := by
    intro c hc
    unfold copyCmdOf at hc
    rcases List.mem_append.mp hc with h | h
    · have hconc : ∀ x ∈ ("COPY ".data : List Char), x ≠ '\n' := by decide
      exact hconc c h
    · rcases List.mem_append.mp h with h2 | h2
      · exact htnl c h2
      · have hconc : ∀ x ∈ (" FROM stdin;".data : List Char), x ≠ '\n' := by
          decide
        exact hconc c h2
  unfold copyBlock
  rw [splitOnNl_append_no_nl hnl, splitOnNl_J (fun l hl => (hd l hl).1)]

theorem execPart_copyBlock {env : Env} {cid : Nat} {tbl : List Char}
    {data : List (List Char)}
    (hne : tbl ≠ []) (hsemi : ∀ c ∈ tbl, c ≠ ';')
    (htnl : ∀ c ∈ tbl, c ≠ '\n')
    (hd : ∀ l ∈ data, (∀ c ∈ l, c ≠ '\n')
      ∧ stripNonempty l = true ∧ stripList l ≠ ['\\', '.'])
    (hcerr : env.copyErr (copyCmdOf tbl) = none) :
    execPart env cid (copyBlock tbl data)
      = [Ev.copy cid (copyCmdOf tbl) (intercal ['\n'] data),
         Ev.commit cid] := by
  have hstrip : stripNonempty (copyBlock tbl data) = true := by
    rw [copyBlock_cons]
    rfl
  unfold execPart
  rw [hstrip, isCopyStart_copyBlock hne hsemi]
  dsimp only
  rw [splitOnNl_copyBlock htnl hd]
  dsimp only [List.headD_cons]
  rw [show List.drop 1 (copyCmdOf tbl :: (data ++ [['\\', '.'], []]))
      = data ++ [['\\', '.'], []] from rfl]
  rw [copyData_exact data false (fun l hl => (hd l hl).2), hcerr]
  simp

/-- C3: a well-formed `COPY ... FROM stdin;` block with N data lines and a
    `\.` terminator is executed as exactly one COPY operation whose payload
    is the newline-join of exactly those N lines, followed by a commit: it is
    isolated by the COPY split (so its text never reaches the
    ordinary-statement splitter) and produces no statement-execution event. -/
theorem C3_copy_block_one_copy_exact_rows (env : Env) (cid : Nat)
    (tbl : List Char) (data : List (List Char))
    (hne : tbl ≠ []) (hsemi : ∀ c ∈ tbl, c ≠ ';')
    (htnl : ∀ c ∈ tbl, c ≠ '\n')
    (hd : ∀ l ∈ data, (∀ c ∈ l, c ≠ '\n')
      ∧ stripNonempty l = true ∧ stripList l ≠ ['\\', '.'])
    (hcerr : env.copyErr (copyCmdOf tbl) = none) :
    execStatements env cid (copyBlock tbl data)
      = [Ev.copy cid (copyCmdOf tbl) (intercal ['\n'] data), Ev.commit cid]
    ∧ (∀ e ∈ execStatements env cid (copyBlock tbl data),
        ∀ (i : Nat) (st : List Char), e ≠ Ev.exec i st) := by
  have hmain : execStatements env cid (copyBlock tbl data)
      = [Ev.copy cid (copyCmdOf tbl) (intercal ['\n'] data), Ev.commit cid] := by
    unfold execStatements
    rw [splitCopy_copyBlock hne hsemi hd]
    dsimp only [catLists, List.map]
    rw [execPart_copyBlock hne hsemi htnl hd hcerr]
    rw [show execPart env cid [] = [] from rfl]
    simp [catLists]
  refine ⟨hmain, ?_⟩
  intro e he i st
  rw [hmain] at he
  rcases List.mem_cons.mp he with rfl | he2
  · simp
  · rcases List.mem_cons.mp he2 with rfl | he3
    · simp
    · simp at he3

theorem C3_copy_block_one_copy_exact_rows_witness :
    execStatements envAllOk 7 (copyBlock "t (a)".data ["1".data, "2".data])
      = [Ev.copy 7 (copyCmdOf "t (a)".data) (intercal ['\n'] ["1".data, "2".data]),
         Ev.commit 7] :=
  (C3_copy_block_one_copy_exact_rows envAllOk 7 "t (a)".data
    ["1".data, "2".data] (by decide) (by decide) (by decide) (by decide) rfl).1

/-! ## Claim C8: at most one open connection -/

theorem openedAfter_append (s : List Nat) (t1 t2 : List Ev) :
    openedAfter s (t1 ++ t2) = openedAfter (openedAfter s t1) t2 :=
  List.foldl_append _ _ _ _

theorem maxOpen_ge (s : List Nat) (tr : List Ev) :
    s.length ≤ maxOpen s tr := by
  cases tr with
  | nil => exact le_refl _
  | cons e es => exact le_max_left _ _

theorem maxOpen_append (s : List Nat) (t1 t2 : List Ev) :
    maxOpen s (t1 ++ t2)
      = max (maxOpen s t1) (maxOpen (openedAfter s t1) t2) := by
  induction t1 generalizing s with
  | nil =>
    have := maxOpen_ge s t2
    simp only [List.nil_append, openedAfter, List.foldl_nil, maxOpen]
    omega
  | cons e t1 ih =>
    rw [List.cons_append]
    simp only [maxOpen]
    rw [ih]
    simp only [openedAfter, List.foldl_cons]
    have h1 := maxOpen_ge (evStep s e) t1
    omega

theorem evStep_plain {s : List Nat} {e : Ev} (h : isConnEv e = false) :
    evStep s e = s := by
  cases e <;> simp [isConnEv] at h ⊢ <;> rfl

theorem openedAfter_plain {s : List Nat} {tr : List Ev}
    (h : ∀ e ∈ tr, isConnEv e = false) : openedAfter s tr = s := by
  induction tr generalizing s with
  | nil => rfl
  | cons e es ih =>
    simp only [openedAfter, List.foldl_cons]
    rw [evStep_plain (h e (by simp))]
    exact ih (fun x hx => h x (by simp [hx]))

theorem maxOpen_plain {s : List Nat} {tr : List Ev}
    (h : ∀ e ∈ tr, isConnEv e = false) : maxOpen s tr = s.length := by
  induction tr generalizing s with
  | nil => rfl
  | cons e es ih =>
    simp only [maxOpen]
    rw [evStep_plain (h e (by simp)), ih (fun x hx => h x (by simp [hx]))]
    omega

theorem execStatements_no_conn (env : Env) (cid : Nat) (sql : List Char) :
    ∀ e ∈ execStatements env cid sql, isConnEv e = false :=
  fun _ he => plainFor_not_connEv (plainFor_execStatements he)

theorem segEvs_no_conn (env : Env) (cid : Nat) (txt : List Char) :
    ∀ e ∈ (if stripNonempty txt then execStatements env cid txt else []),
      isConnEv e = false := by
  split_ifs
  · exact execStatements_no_conn env cid txt
  · simp

/-- The close events generated for the current value of the `conn` variable. -/
def closeEvsOf (cv : Option Nat) : List Ev :=
  match cv with
  | some i => [Ev.closeC i]
  | none => []

theorem finClose_bounded {s : List Nat} {cvr : Option Nat}
    (h : s = [] ∨ ∃ i, cvr = some i ∧ s = [i]) :
    maxOpen s (closeEvsOf cvr) ≤ 1 ∧ openedAfter s (closeEvsOf cvr) = [] := by
  rcases h with rfl | ⟨i, hcv, rfl⟩
  · cases cvr with
    | none => exact ⟨by simp [closeEvsOf, maxOpen], rfl⟩
    | some j =>
      refine ⟨?_, ?_⟩
      · simp [closeEvsOf, maxOpen, evStep]
      · simp [closeEvsOf, openedAfter, evStep]
  · subst hcv
    refine ⟨?_, ?_⟩
    · simp [closeEvsOf, maxOpen, evStep]
    · simp [closeEvsOf, openedAfter, evStep]

theorem runSegs_cons (env : Env) (cv : Option Nat) (n : Nat)
    (db txt : List Char) (rest : List (List Char × List Char)) :
    runSegs env cv n ((db, txt) :: rest)
      = if env.connectOk db
        then (closeEvsOf cv
            ++ Ev.openC n db
             :: ((if stripNonempty txt then execStatements env n txt else [])
                ++ (runSegs env (some n) (n + 1) rest).1),
          (runSegs env (some n) (n + 1) rest).2.1,
          (runSegs env (some n) (n + 1) rest).2.2)
        else (closeEvsOf cv, cv, false) := by
  conv_lhs => unfold runSegs
  cases hc : env.connectOk db <;>
    simp only [hc, Bool.false_eq_true, if_false, if_true] <;> rfl

theorem runSegs_bounded (env : Env) :
    ∀ (pairs : List (List Char × List Char)) (cv : Option Nat) (n : Nat)
      (s : List Nat),
    (s = [] ∨ ∃ i, cv = some i ∧ s = [i]) →
    maxOpen s (runSegs env cv n pairs).1 ≤ 1
    ∧ (openedAfter s (runSegs env cv n pairs).1 = []
        ∨ ∃ i, (runSegs env cv n pairs).2.1 = some i
          ∧ openedAfter s (runSegs env cv n pairs).1 = [i]) := by
  intro pairs
  induction pairs with
  | nil =>
    intro cv n s hinv
    refine ⟨?_, ?_⟩
    · show maxOpen s [] ≤ 1
      rcases hinv with rfl | ⟨i, _, rfl⟩ <;> simp [maxOpen]
    · show openedAfter s [] = [] ∨ _
      rcases hinv with rfl | ⟨i, hcv, rfl⟩
      · exact Or.inl rfl
      · exact Or.inr ⟨i, hcv, rfl⟩
  | cons q rest ih =>
    intro cv n s hinv
    obtain ⟨db, txt⟩ := q
    rw [runSegs_cons]
    have hclose := finClose_bounded hinv
    cases hc : env.connectOk db with
    | false =>
      simp only [Bool.false_eq_true, if_false]
      exact ⟨hclose.1, Or.inl hclose.2⟩
    | true =>
      simp only [if_true]
      have hseg := segEvs_no_conn env n txt
      have hIH := ih (some n) (n + 1) [n] (Or.inr ⟨n, rfl, rfl⟩)
      constructor
      · rw [maxOpen_append, hclose.2]
        rw [show maxOpen ([] : List Nat)
            (Ev.openC n db
             :: ((if stripNonempty txt then execStatements env n txt else [])
                ++ (runSegs env (some n) (n + 1) rest).1))
            = max ([] : List Nat).length
                (maxOpen [n]
                  ((if stripNonempty txt then execStatements env n txt else [])
                    ++ (runSegs env (some n) (n + 1) rest).1)) from rfl]
        rw [maxOpen_append, maxOpen_plain hseg, openedAfter_plain hseg]
        have h1 := hclose.1
        have h2 := hIH.1
        simp only [List.length_nil, List.length_cons]
        omega
      · rw [openedAfter_append, hclose.2]
        rw [show openedAfter ([] : List Nat)
            (Ev.openC n db
             :: ((if stripNonempty txt then execStatements env n txt else [])
                ++ (runSegs env (some n) (n + 1) rest).1))
            = openedAfter [n]
                ((if stripNonempty txt then execStatements env n txt else [])
                  ++ (runSegs env (some n) (n + 1) rest).1) from rfl]
        rw [openedAfter_append, openedAfter_plain hseg]
        exact hIH.2

theorem maxOpen_cons (s : List Nat) (e : Ev) (es : List Ev) :
    maxOpen s (e :: es) = max s.length (maxOpen (evStep s e) es) := rfl

theorem openedAfter_cons (s : List Nat) (e : Ev) (es : List Ev) :
    openedAfter s (e :: es) = openedAfter (evStep s e) es := rfl

theorem runFile_eq (env : Env) (content : List Char) :
    runFile env content
      = if stripNonempty (splitConnect content).1
        then
          if env.connectOk defaultDbName
          then (Ev.openC 0 defaultDbName
             :: (execStatements env 0 (splitConnect content).1
                ++ (runSegs env (some 0) 1 (splitConnect content).2).1
                ++ closeEvsOf (runSegs env (some 0) 1 (splitConnect content).2).2.1),
            (runSegs env (some 0) 1 (splitConnect content).2).2.2)
          else ([], false)
        else ((runSegs env none 0 (splitConnect content).2).1
            ++ closeEvsOf (runSegs env none 0 (splitConnect content).2).2.1,
          (runSegs env none 0 (splitConnect content).2).2.2) := by
  conv_lhs => unfold runFile
  by_cases h1 : stripNonempty (splitConnect content).1 = true
  · by_cases h2 : env.connectOk defaultDbName = true
    · simp only [h1, h2, if_true]
      rfl
    · simp only [h1, h2, Bool.false_eq_true, if_true, if_false]
  · simp only [h1, Bool.false_eq_true, if_false]
    rfl

/-- C8: along every run trace, at most one runner-opened connection is open
    at any point (in particular a segment's connection is closed before the
    next one is opened), and at the end of the run — on the success path and
    on every connection-failure path — no connection remains open. -/
theorem C8_at_most_one_open_connection (env : Env) (content : List Char) :
    maxOpen [] (runFile env content).1 ≤ 1
    ∧ openedAfter [] (runFile env content).1 = [] := by
  rw [runFile_eq]
  by_cases h1 : stripNonempty (splitConnect content).1 = true
  · by_cases h2 : env.connectOk defaultDbName = true
    · simp only [h1, h2, if_true]
      have hs := runSegs_bounded env (splitConnect content).2 (some 0) 1 [0]
        (Or.inr ⟨0, rfl, rfl⟩)
      have hfin := finClose_bounded hs.2
      have hexec := execStatements_no_conn env 0 (splitConnect content).1
      constructor
      · rw [maxOpen_cons]
        rw [show evStep [] (Ev.openC 0 defaultDbName) = [0] from rfl]
        rw [maxOpen_append, maxOpen_append, maxOpen_plain hexec,
          openedAfter_plain hexec, openedAfter_append, openedAfter_plain hexec]
        have h3 := hs.1
        have h4 := hfin.1
        simp only [List.length_nil, List.length_cons]
        omega
      · rw [openedAfter_cons]
        rw [show evStep [] (Ev.openC 0 defaultDbName) = [0] from rfl]
        rw [openedAfter_append, openedAfter_append, openedAfter_plain hexec]
        exact hfin.2
    · simp only [h1, h2, Bool.false_eq_true, if_true, if_false]
      exact ⟨by simp [maxOpen], rfl⟩
  · simp only [h1, Bool.false_eq_true, if_false]
    have hs := runSegs_bounded env (splitConnect content).2 none 0 []
      (Or.inl rfl)
    have hfin := finClose_bounded hs.2
    constructor
    · rw [maxOpen_append]
      have h3 := hs.1
      have h4 := hfin.1
      omega
    · rw [openedAfter_append]
      exact hfin.2

/-! ## Claim C10: blank text never reaches the database -/

theorem closeEvsOf_no_open {cv : Option Nat} :
    ∀ e ∈ closeEvsOf cv, ∀ (i : Nat) (db : List Char), e ≠ Ev.openC i db := by
  cases cv <;> simp [closeEvsOf]

theorem runSegs_open_dbs (env : Env) :
    ∀ (pairs : List (List Char × List Char)) (cv : Option Nat) (n : Nat),
    ∀ e ∈ (runSegs env cv n pairs).1,
    ∀ (i : Nat) (db : List Char), e = Ev.openC i db → db ∈ pairs.map Prod.fst := by
  intro pairs
  induction pairs with
  | nil =>
    intro cv n e he
    rw [show (runSegs env cv n []).1 = [] from rfl] at he
    simp at he
  | cons q rest ih =>
    intro cv n e he i db heq
    obtain ⟨db0, txt⟩ := q
    rw [runSegs_cons] at he
    cases hc : env.connectOk db0 with
    | false =>
      rw [hc] at he
      simp only [Bool.false_eq_true, if_false] at he
      exact absurd heq (closeEvsOf_no_open e he i db)
    | true =>
      rw [hc] at he
      simp only [if_true] at he
      rcases List.mem_append.mp he with h1 | h1
      · exact absurd heq (closeEvsOf_no_open e h1 i db)
      · rcases List.mem_cons.mp h1 with rfl | h2
        · obtain ⟨-, rfl⟩ := Ev.openC.inj heq
          simp
        · rcases List.mem_append.mp h2 with h3 | h3
          · have := segEvs_no_conn env n txt e h3
            subst heq
            simp [isConnEv] at this
          · have := ih (some n) (n + 1) e h3 i db heq
            simp only [List.map_cons]
            exact List.mem_cons_of_mem _ this

/-- C10: whitespace-only text produces no database work.  When the text
    before the first directive is blank, the run's trace is exactly the
    segment loop's trace plus the final close (no connection is opened for
    the initial segment and nothing is executed on it; every open targets a
    directive's database), and when additionally no directive exists the
    trace is empty; within a segment, a blank part or a blank statement is
    skipped without any event. -/
theorem C10_blank_text_skipped :
    (∀ (env : Env) (content : List Char),
      stripNonempty (splitConnect content).1 = false →
      (runFile env content).1
        = (runSegs env none 0 (splitConnect content).2).1
          ++ closeEvsOf (runSegs env none 0 (splitConnect content).2).2.1)
    ∧ (∀ (env : Env) (content : List Char),
      stripNonempty (splitConnect content).1 = false →
      (splitConnect content).2 = [] →
      (runFile env content).1 = [])
    ∧ (∀ (env : Env) (cid : Nat) (part : List Char),
      stripNonempty part = false → execPart env cid part = [])
    ∧ (∀ (env : Env) (cid : Nat) (st : List Char),
      stripNonempty st = false → execOrd env cid st = [])
    ∧ (∀ (env : Env) (pairs : List (List Char × List Char)) (cv : Option Nat)
        (n : Nat), ∀ e ∈ (runSegs env cv n pairs).1,
        ∀ (i : Nat) (db : List Char), e = Ev.openC i db →
          db ∈ pairs.map Prod.fst) := by
  refine ⟨?_, ?_, ?_, ?_, runSegs_open_dbs⟩
  · intro env content h
    rw [runFile_eq]
    simp [h]
  · intro env content h hp
    rw [runFile_eq]
    simp [h, hp]
    exact ⟨rfl, rfl⟩
  · intro env cid part h
    simp [execPart, h]
  · intro env cid st h
    simp [execOrd, h]

theorem C10_blank_text_skipped_witness :
    execPart envAllOk 0 "  \n ".data = [] :=
  C10_blank_text_skipped.2.2.1 envAllOk 0 "  \n ".data (by decide)
